import Mathlib

/-!
Verification of the BizLearn business-plan sectionizer
(`src/lib/businessPlanGenerator.ts`).

Strings are embedded as `List Char`.  Each JavaScript
`String.prototype.replace` call with a global regex is embedded as a
left-to-right character scan that mirrors the regex engine's behaviour
(non-overlapping matches, greedy quantifiers, multiline `^` anchoring where
the `m` flag is present).  All scans are structurally recursive so that the
kernel can evaluate them on concrete inputs.
-/

namespace BizLearn

/-- JavaScript's `\s` character class (WhiteSpace and LineTerminator
productions), used by the regexes in the source and by `String.trim`. -/
def isWS (c : Char) : Bool :=
  c = ' ' || c = '\t' || c = '\n' || c = '\x0b' || c = '\x0c' || c = '\r' ||
  c = '\u00A0' || c = '\u1680' ||
  (0x2000 ≤ c.val && c.val ≤ 0x200A) ||
  c = '\u2028' || c = '\u2029' || c = '\u202F' || c = '\u205F' ||
  c = '\u3000' || c = '\uFEFF'

/-- JavaScript's LineTerminator characters: with the `m` flag, `^` matches
right after any of these. -/
def isNL (c : Char) : Bool :=
  c = '\n' || c = '\r' || c = '\u2028' || c = '\u2029'

/-- `.replace(/\*\*/g, '')` — remove bold markdown markers. -/
def removeBold : List Char → List Char
  | [] => []
  | [c] => [c]
  | c :: d :: r =>
    if c = '*' ∧ d = '*' then removeBold r else c :: removeBold (d :: r)

/-- `.replace(/\*/g, '')` — remove remaining asterisks. -/
def removeStar : List Char → List Char
  | [] => []
  | c :: r => if c = '*' then removeStar r else c :: removeStar r

/-- Scan state machine for `.replace(/#{1,6}\s/g, '')`.  The accumulator `k`
(capped at 6) counts buffered `'#'` characters that may yet begin a match:
a 7th consecutive `'#'` forces the oldest buffered one to be emitted, since
the greedy group of at most six hashes must be followed by whitespace. -/
def removeHashAux : Nat → List Char → List Char
  | k, [] => List.replicate k '#'
  | k, c :: r =>
    if c = '#' then
      if k = 6 then '#' :: removeHashAux 6 r else removeHashAux (k + 1) r
    else if isWS c ∧ k ≠ 0 then removeHashAux 0 r
    else List.replicate k '#' ++ c :: removeHashAux 0 r

/-- `.replace(/#{1,6}\s/g, '')` — remove markdown header markers. -/
def removeHash (l : List Char) : List Char := removeHashAux 0 l

/-- Scan for `.replace(/^\s*[-•]\s/gm, '• ')`.  In mode `true` the scan is at
a line start with the whitespace run read so far buffered (in reverse) in
`w`; on a successful match the run, the marker and one following whitespace
character are replaced by `'•' ' '`.  If the attempt fails, every later
attempt inside the run fails as well, so the buffer is emitted verbatim.
In mode `false` the scan is mid-line and merely copies characters. -/
def bnormGo : Bool → List Char → List Char → List Char
  | _, w, [] => w.reverse
  | false, _, c :: r => c :: bnormGo (isNL c) [] r
  | true, w, [c] => w.reverse ++ [c]
  | true, w, c :: d :: tl =>
    if isWS c then bnormGo true (c :: w) (d :: tl)
    else if (c = '-' ∨ c = '•') ∧ isWS d then
      '•' :: ' ' :: bnormGo (isNL d) [] tl
    else w.reverse ++ c :: bnormGo false [] (d :: tl)

/-- `.replace(/^\s*[-•]\s/gm, '• ')` — normalize bullet points. -/
def bulletNorm (l : List Char) : List Char := bnormGo true [] l

/-- Scan state machine for `.replace(/\n{3,}/g, '\n\n')`: `n` counts the
newlines of the current run; a run of `k` newlines is emitted as
`min k 2` newlines. -/
def collapseAux : Nat → List Char → List Char
  | n, [] => List.replicate (min n 2) '\n'
  | n, c :: r =>
    if c = '\n' then collapseAux (n + 1) r
    else List.replicate (min n 2) '\n' ++ c :: collapseAux 0 r

/-- `.replace(/\n{3,}/g, '\n\n')` — collapse runs of three or more
newlines to exactly two. -/
def collapseNL (l : List Char) : List Char := collapseAux 0 l

/-- Scan for `.replace(/^\s+/gm, '')`.  In mode `true` the scan is at a line
start or inside a line-leading whitespace run, which is deleted wholly
(the run may cross newlines, since `\s` matches `'\n'`). -/
def slAux : Bool → List Char → List Char
  | _, [] => []
  | true, c :: r => if isWS c then slAux true r else c :: slAux (isNL c) r
  | false, c :: r => c :: slAux (isNL c) r

/-- `.replace(/^\s+/gm, '')` — strip leading whitespace from lines. -/
def stripLead (l : List Char) : List Char := slAux true l

/-- `String.prototype.trim()` — strip whitespace from both ends. -/
def jsTrim (l : List Char) : List Char :=
  ((l.dropWhile isWS).reverse.dropWhile isWS).reverse

/-- The global cleanup pass applied to the whole raw completion at the top
of `parseBusinessPlanSections`:
bold, asterisks, headers, bullets, line breaks, trim — in source order. -/
def cleanContent (content : List Char) : List Char :=
  jsTrim (collapseNL (bulletNorm (removeHash (removeStar (removeBold content)))))

/-- `formatSectionContent` — the per-section formatting pass:
bold, asterisks, bullets, line breaks, leading whitespace, trim —
in source order. -/
def formatSectionContent (content : List Char) : List Char :=
  jsTrim (stripLead (collapseNL (bulletNorm (removeStar (removeBold content)))))

/-- `content.split('\n')` — JavaScript split on newline (the result always
has at least one element; a trailing newline yields a trailing `""`). -/
def splitNL : List Char → List (List Char)
  | [] => [[]]
  | c :: r =>
    if c = '\n' then [] :: splitNL r
    else
      match splitNL r with
      | h :: t => (c :: h) :: t
      | [] => [[c]]

/-- `String.prototype.toLowerCase()` on the characters that occur here
(ASCII letters). -/
def lower (l : List Char) : List Char := l.map Char.toLower

/-- Prefix test on character lists. -/
def isPrefixL : List Char → List Char → Bool
  | [], _ => true
  | _ :: _, [] => false
  | a :: as, b :: bs => a = b && isPrefixL as bs

/-- `hay.includes(needle)` — contiguous substring test. -/
def inclSub : List Char → List Char → Bool
  | [], needle => needle.isEmpty
  | hay@(_ :: t), needle => isPrefixL needle hay || inclSub t needle

/-- `trimmedLine.match(/^\d+\./)` is non-null: one or more decimal digits
followed by `'.'` at the start of the line. -/
def startsNum (l : List Char) : Bool :=
  let ds := l.takeWhile Char.isDigit
  !ds.isEmpty &&
    (match l.drop ds.length with
     | '.' :: _ => true
     | _ => false)

/-- Abbreviation for string literals as character lists. -/
def str (s : String) : List Char := s.data

/-- The fixed list of expected section headers (the canonical outline),
in source order. -/
def sectionHeaders : List (List Char) :=
  [str "Executive Summary",
   str "Company Description",
   str "Market Analysis",
   str "Organization & Management",
   str "Products or Services",
   str "Marketing & Sales Strategy",
   str "Financial Projections",
   str "Risk Analysis",
   str "Implementation Timeline",
   str "Appendices"]

/-- The predicate tested for each header inside `sectionHeaders.find`:
`trimmedLine.toLowerCase().includes(header.toLowerCase()) &&
 (trimmedLine.match(/^\d+\./) ||
  trimmedLine.toLowerCase() === header.toLowerCase())`. -/
def headerPred (trimmed h : List Char) : Bool :=
  inclSub (lower trimmed) (lower h) &&
    (startsNum trimmed || decide (lower trimmed = lower h))

/-- `sectionHeaders.find(header => ...)` applied to a trimmed line. -/
def matchedHeader (trimmed : List Char) : Option (List Char) :=
  sectionHeaders.find? (headerPred trimmed)

/-- A parsed business-plan section (`BusinessPlanSection` in the source). -/
structure BusinessPlanSection where
  title : List Char
  content : List Char
deriving Repr, DecidableEq

/-- Flushing the accumulated section: pushed only when `currentSection` is a
non-empty (truthy) string and `currentContent.trim()` is non-empty. -/
def flushSec (title content : List Char) : List BusinessPlanSection :=
  if title ≠ [] ∧ jsTrim content ≠ [] then
    [⟨title, formatSectionContent (jsTrim content)⟩]
  else []

/-- The line-scan loop of `parseBusinessPlanSections`: for each line, either
start a new section at a matched header (flushing the previous one) or
append the line plus `'\n'` to the current accumulator; the last section is
flushed after the loop. -/
def scanLines : List (List Char) → List Char → List Char → List BusinessPlanSection
  | [], cur, acc => flushSec cur acc
  | line :: rest, cur, acc =>
    match matchedHeader (jsTrim line) with
    | some h => flushSec cur acc ++ scanLines rest h []
    | none => scanLines rest cur (acc ++ line ++ ['\n'])

/-- `parseBusinessPlanSections` — clean the raw completion, scan its lines
into sections, and fall back to a single "Business Plan" section when the
scan produced nothing. -/
def parseBusinessPlanSections (content : List Char) : List BusinessPlanSection :=
  let clean := cleanContent content
  let secs := scanLines (splitNL clean) [] []
  if secs = [] then [⟨str "Business Plan", formatSectionContent clean⟩] else secs

/-- Status field of a generated plan. -/
inductive PlanStatus where
  | draft
  | complete
deriving Repr, DecidableEq

/-- `GeneratedBusinessPlan` record (`createdAt` modeled as the numeric
timestamp). -/
structure GeneratedBusinessPlan where
  id : List Char
  title : List Char
  industry : List Char
  createdAt : Nat
  sections : List BusinessPlanSection
  status : PlanStatus
deriving Repr, DecidableEq

/-- Decimal string of a natural number, as produced by
`Date.now().toString()`. -/
def natToChars (n : Nat) : List Char := Nat.toDigits 10 n

/-- `modifyBusinessPlan` — the record construction performed after the API
call: spread of the original plan with a fresh id (`Date.now().toString()`,
modeled by the `now` parameter), the title suffixed with " (Modified)", a
new timestamp, the re-parsed sections of the modified completion text
(modeled by the `modifiedContent` parameter), and status `complete`.
The embedded operation is a pure function: the original record is not
mutated. -/
def modifyBusinessPlan (plan : GeneratedBusinessPlan) (now : Nat)
    (modifiedContent : List Char) : GeneratedBusinessPlan :=
  { plan with
    id := natToChars now
    title := plan.title ++ str " (Modified)"
    createdAt := now
    sections := parseBusinessPlanSections modifiedContent
    status := PlanStatus.complete }


/-! ### Helper lemmas for the header matcher -/

theorem isPrefixL_refl : ∀ l : List Char, isPrefixL l l = true
  | [] => rfl
  | c :: r => by simp [isPrefixL, isPrefixL_refl r]

theorem inclSub_self (l : List Char) : inclSub l l = true := by
  cases l with
  | nil => rfl
  | cons c r => simp [inclSub, isPrefixL_refl]

theorem headerPred_iff (t h : List Char) :
    headerPred t h = true ↔
      (lower t = lower h ∨
        (startsNum t = true ∧ inclSub (lower t) (lower h) = true)) := by
  simp only [headerPred, Bool.and_eq_true, Bool.or_eq_true, decide_eq_true_eq]
  constructor
  · rintro ⟨hincl, hnum | heq⟩
    · exact Or.inr ⟨hnum, hincl⟩
    · exact Or.inl heq
  · rintro (heq | ⟨hnum, hincl⟩)
    · refine ⟨?_, Or.inr heq⟩
      rw [heq]; exact inclSub_self _
    · exact ⟨hincl, Or.inl hnum⟩

/-! ### Helper lemmas for the line scan -/

theorem flushSec_empty_title (acc : List Char) : flushSec [] acc = [] := by
  simp [flushSec]

theorem flushSec_blank (cur acc : List Char) (h : jsTrim acc = []) :
    flushSec cur acc = [] := by
  simp [flushSec, h]

theorem scanLines_all_none : ∀ (lines : List (List Char)) (acc : List Char),
    (∀ l ∈ lines, matchedHeader (jsTrim l) = none) → scanLines lines [] acc = []
  | [], acc, _ => flushSec_empty_title acc
  | line :: rest, acc, h => by
    have h1 : matchedHeader (jsTrim line) = none := h line (by simp)
    have h2 : ∀ l ∈ rest, matchedHeader (jsTrim l) = none :=
      fun l hl => h l (by simp [hl])
    simp only [scanLines, h1]
    exact scanLines_all_none rest _ h2

theorem scanLines_acc_irrelevant :
    ∀ (lines : List (List Char)) (acc acc' : List Char),
      scanLines lines [] acc = scanLines lines [] acc'
  | [], _, _ => by simp [scanLines, flushSec]
  | line :: rest, acc, acc' => by
    cases hm : matchedHeader (jsTrim line) with
    | some h => simp [scanLines, hm, flushSec_empty_title]
    | none =>
      simp only [scanLines, hm]
      exact scanLines_acc_irrelevant rest _ _

theorem scanLines_drop_unmatched_prefix :
    ∀ (pre rest : List (List Char)),
      (∀ l ∈ pre, matchedHeader (jsTrim l) = none) →
      scanLines (pre ++ rest) [] [] = scanLines rest [] []
  | [], rest, _ => rfl
  | line :: pre, rest, h => by
    have h1 : matchedHeader (jsTrim line) = none := h line (by simp)
    simp only [List.cons_append, scanLines, h1, List.append_eq]
    rw [scanLines_acc_irrelevant (pre ++ rest) _ []]
    exact scanLines_drop_unmatched_prefix pre rest (fun l hl => h l (by simp [hl]))

theorem scanLines_titles_sublist :
    ∀ (lines : List (List Char)) (cur acc : List Char),
      List.Sublist ((scanLines lines cur acc).map BusinessPlanSection.title)
        (cur :: lines.filterMap (fun l => matchedHeader (jsTrim l)))
  | [], cur, acc => by
    simp only [scanLines, flushSec]
    split
    · simp
    · simp
  | line :: rest, cur, acc => by
    cases hm : matchedHeader (jsTrim line) with
    | some h =>
      simp only [scanLines, hm, List.filterMap_cons, List.map_append]
      have ih := scanLines_titles_sublist rest h []
      by_cases hc : cur ≠ [] ∧ jsTrim acc ≠ []
      · simp only [flushSec, if_pos hc, List.map_cons, List.map_nil,
          List.singleton_append]
        exact List.Sublist.cons₂ _ ih
      · simp only [flushSec, if_neg hc, List.map_nil, List.nil_append]
        exact List.Sublist.cons _ ih
    | none =>
      simp only [scanLines, hm, List.filterMap_cons]
      exact scanLines_titles_sublist rest cur _

theorem scanLines_titles_sublist' :
    ∀ (lines : List (List Char)) (acc : List Char),
      List.Sublist ((scanLines lines [] acc).map BusinessPlanSection.title)
        (lines.filterMap (fun l => matchedHeader (jsTrim l)))
  | [], acc => by simp [scanLines, flushSec]
  | line :: rest, acc => by
    cases hm : matchedHeader (jsTrim line) with
    | some h =>
      simp only [scanLines, hm, List.filterMap_cons,
        flushSec_empty_title, List.nil_append]
      exact scanLines_titles_sublist rest h []
    | none =>
      simp only [scanLines, hm, List.filterMap_cons]
      exact scanLines_titles_sublist' rest _

/-! ### Claims C3 through C10 (easy ones) -/

/-- C3: for every string `s`, including the empty string,
`parseBusinessPlanSections` returns a list of at least one section;
the output is never the empty list. -/
theorem sectionize_never_empty (content : List Char) :
    1 ≤ (parseBusinessPlanSections content).length := by
  simp only [parseBusinessPlanSections]
  split
  · simp
  · rename_i h
    exact List.length_pos.mpr h

/-- C4: a line of the cleaned text opens a section boundary exactly when its
trimmed text case-insensitively equals a canonical name, or it begins with a
decimal numbering prefix and case-insensitively contains a canonical name as
a substring; in particular "3. Market Analysis — Q1" is recognized as the
header for "Market Analysis". -/
theorem header_match_characterization :
    (∀ line : List Char,
        (matchedHeader (jsTrim line)).isSome = true ↔
          ∃ h ∈ sectionHeaders,
            lower (jsTrim line) = lower h ∨
              (startsNum (jsTrim line) = true ∧
                inclSub (lower (jsTrim line)) (lower h) = true)) ∧
      matchedHeader (jsTrim (str "3. Market Analysis — Q1")) =
        some (str "Market Analysis") := by
  constructor
  · intro line
    simp only [matchedHeader, List.find?_isSome]
    constructor
    · rintro ⟨h, hmem, hp⟩
      exact ⟨h, hmem, (headerPred_iff _ _).mp hp⟩
    · rintro ⟨h, hmem, hp⟩
      exact ⟨h, hmem, (headerPred_iff _ _).mpr hp⟩
  · decide

/-- C5 counterexample: the input "**Executive Summary**\nbody" contains no
line matching either canonical header form (the bold markers block both
forms), yet the output is not the single fallback section — the cleanup
pass creates a header line out of "**Executive Summary**". -/
theorem fallback_claim_counterexample :
    ((splitNL (str "**Executive Summary**\nbody")).all
        (fun l => (matchedHeader (jsTrim l)).isNone)) = true ∧
      parseBusinessPlanSections (str "**Executive Summary**\nbody") ≠
        [⟨str "Business Plan",
          formatSectionContent (cleanContent (str "**Executive Summary**\nbody"))⟩] := by
  exact ⟨by decide, by decide⟩

/-- C5 amended: if the CLEANED input contains no line matching either
canonical header form, then the output is the single fallback section
titled "Business Plan" whose content is the global cleanup pass followed by
the per-section formatting pass applied to `s`. -/
theorem fallback_on_no_cleaned_header (s : List Char)
    (h : ∀ l ∈ splitNL (cleanContent s), matchedHeader (jsTrim l) = none) :
    parseBusinessPlanSections s =
      [⟨str "Business Plan", formatSectionContent (cleanContent s)⟩] := by
  have hz := scanLines_all_none (splitNL (cleanContent s)) [] h
  simp [parseBusinessPlanSections, hz]

/-- Witness for `fallback_on_no_cleaned_header` at a concrete header-free
input. -/
theorem fallback_on_no_cleaned_header_witness :
    parseBusinessPlanSections (str "hello world") =
      [⟨str "Business Plan", formatSectionContent (cleanContent (str "hello world"))⟩] :=
  fallback_on_no_cleaned_header (str "hello world") (by decide)

/-- C6: sections appear in the output in the order in which their matched
header lines appear in the input (the output title sequence is a sublist of
the matched-header sequence of the cleaned lines), not in canonical outline
order; for input with headers "Market Analysis" then "Executive Summary",
the output titles are in that order. -/
theorem section_order_follows_input :
    (∀ raw : List Char,
        List.Sublist
          ((scanLines (splitNL (cleanContent raw)) [] []).map
            BusinessPlanSection.title)
          ((splitNL (cleanContent raw)).filterMap
            (fun l => matchedHeader (jsTrim l)))) ∧
      (parseBusinessPlanSections
          (str "Market Analysis\nAlpha\nExecutive Summary\nBeta")).map
          BusinessPlanSection.title =
        [str "Market Analysis", str "Executive Summary"] :=
  ⟨fun _ => scanLines_titles_sublist' _ _, by decide⟩

/-- C7 counterexample: at least one header line is matched in this input,
yet the preamble line appears in the (fallback) output section's content,
because the only matched section had blank content. -/
theorem preamble_in_fallback_counterexample :
    ((splitNL (cleanContent (str "Preamble text\nExecutive Summary"))).any
        (fun l => (matchedHeader (jsTrim l)).isSome) = true) ∧
      parseBusinessPlanSections (str "Preamble text\nExecutive Summary") =
        [⟨str "Business Plan", str "Preamble text\nExecutive Summary"⟩] ∧
      inclSub (str "Preamble text\nExecutive Summary") (str "Preamble text") = true := by
  exact ⟨by decide, by decide, by decide⟩

/-- C7 amended: when at least one header line is matched AND the scan
produces at least one (non-blank) section, the lines before the first
matched header are discarded: the output equals the scan of the line
sequence starting at the first matched header. -/
theorem preamble_discarded (raw : List Char) (pre rest : List (List Char))
    (hsplit : splitNL (cleanContent raw) = pre ++ rest)
    (hpre : ∀ l ∈ pre, matchedHeader (jsTrim l) = none)
    (hne : scanLines (splitNL (cleanContent raw)) [] [] ≠ []) :
    parseBusinessPlanSections raw = scanLines rest [] [] := by
  have hd : scanLines (splitNL (cleanContent raw)) [] [] = scanLines rest [] [] := by
    rw [hsplit]
    exact scanLines_drop_unmatched_prefix pre rest hpre
  simp only [parseBusinessPlanSections]
  rw [if_neg hne, hd]

/-- Witness for `preamble_discarded` at a concrete input with a discarded
preamble line. -/
theorem preamble_discarded_witness :
    parseBusinessPlanSections (str "junk\nExecutive Summary\nbody") =
      scanLines [str "Executive Summary", str "body"] [] [] :=
  preamble_discarded _ [str "junk"] [str "Executive Summary", str "body"]
    (by decide) (by decide) (by decide)

/-- C9: when a numbered line contains several canonical names, the one
earliest in the canonical outline list wins, regardless of position within
the line: `find` returns the first list entry satisfying the predicate,
and on "2. Risk Analysis and Market Analysis" the chosen title is
"Market Analysis" even though "Risk Analysis" appears first in the line. -/
theorem numbered_line_first_canonical :
    (∀ t h : List Char,
        matchedHeader t = some h ↔
          headerPred t h = true ∧
            ∃ u v, sectionHeaders = u ++ h :: v ∧
              ∀ h' ∈ u, headerPred t h' = false) ∧
      matchedHeader (jsTrim (str "2. Market Analysis and Risk Analysis")) =
        some (str "Market Analysis") ∧
      matchedHeader (jsTrim (str "2. Risk Analysis and Market Analysis")) =
        some (str "Market Analysis") := by
  refine ⟨fun t h => ?_, by decide, by decide⟩
  simp only [matchedHeader, List.find?_eq_some]
  constructor
  · rintro ⟨hp, u, v, he, hall⟩
    refine ⟨hp, u, v, he, fun h' hm => ?_⟩
    simpa using hall h' hm
  · rintro ⟨hp, u, v, he, hall⟩
    refine ⟨hp, u, v, he, fun h' hm => ?_⟩
    simpa using hall h' hm

/-- C10: a matched section with blank accumulated content is not flushed, so
the fallback can fire even when a header matched: an input consisting solely
of the header line "Executive Summary" yields the single fallback section
whose content is the cleaned input (containing the header text itself), and
the empty input yields the fallback section with empty content. -/
theorem blank_sections_dropped :
    (∀ cur acc : List Char, jsTrim acc = [] → flushSec cur acc = []) ∧
      parseBusinessPlanSections (str "Executive Summary") =
        [⟨str "Business Plan", str "Executive Summary"⟩] ∧
      parseBusinessPlanSections [] = [⟨str "Business Plan", []⟩] :=
  ⟨fun _ acc h => flushSec_blank _ acc h, by decide, by decide⟩

/-- Witness for `blank_sections_dropped` at a concrete blank accumulator. -/
theorem blank_sections_dropped_witness :
    flushSec (str "Executive Summary") (str "  ") = [] :=
  blank_sections_dropped.1 (str "Executive Summary") (str "  ") (by decide)

/-- C8 counterexample: a modification whose timestamp equals the numeric
value encoded in the original id produces an id EQUAL to the original one —
the code does not guarantee a distinct id. -/
def c8plan : GeneratedBusinessPlan :=
  ⟨natToChars 5, str "My Plan", str "Technology", 4, [], PlanStatus.complete⟩

/-- C8 counterexample theorem (see `c8plan`). -/
theorem modify_same_id_counterexample :
    (modifyBusinessPlan c8plan 5 []).id = c8plan.id := by decide

/-- C8 amended: `modifyBusinessPlan` is a pure record construction (the
original record is untouched); the result carries the industry over
unchanged, suffixes the title with " (Modified)", stamps the new timestamp,
and sets the id to the decimal string of the new timestamp — which is
distinct from the original id whenever that string differs from it. -/
theorem modify_mints_new_record (plan : GeneratedBusinessPlan) (now : Nat)
    (content : List Char) :
    (modifyBusinessPlan plan now content).industry = plan.industry ∧
    (modifyBusinessPlan plan now content).title = plan.title ++ str " (Modified)" ∧
    (modifyBusinessPlan plan now content).createdAt = now ∧
    (modifyBusinessPlan plan now content).id = natToChars now ∧
    (natToChars now ≠ plan.id → (modifyBusinessPlan plan now content).id ≠ plan.id) :=
  ⟨rfl, rfl, rfl, rfl, fun h => h⟩

/-- Witness for `modify_mints_new_record` with a timestamp string differing
from the original id. -/
theorem modify_mints_new_record_witness :
    (modifyBusinessPlan c8plan 7 []).id ≠ c8plan.id :=
  (modify_mints_new_record c8plan 7 []).2.2.2.2 (by decide)


/-! ### Cleanliness predicates

`scanOK s l` walks `l` with a line-start flag `s` (the multiline-anchor
state) and checks, at every line start, that the first character is not
whitespace and that a bullet marker followed by whitespace is exactly
`'•' ' '`.  Together with star-freeness and a non-whitespace last
character this characterizes the strings that every pass of
`formatSectionContent` leaves unchanged. -/

def scanOK : Bool → List Char → Bool
  | _, [] => true
  | s, [c] => !s || !isWS c
  | s, c :: d :: r =>
    (!s || (!isWS c &&
      (!((c = '-' || c = '•') && isWS d) || ((c = '•') && (d = ' '))))) &&
    scanOK (isNL c) (d :: r)

/-- No asterisk occurs in the string. -/
def noStar (l : List Char) : Bool := l.all (fun c => c ≠ '*')

/-- The last character, when present, is not whitespace. -/
def lastOK (l : List Char) : Bool :=
  match l.getLast? with
  | none => true
  | some c => !isWS c

/-- Claim-facing predicate: no character standing at a line start is
whitespace (in particular no line of the string begins with whitespace). -/
def noLeadWSAux : Bool → List Char → Bool
  | _, [] => true
  | s, c :: r => (!s || !isWS c) && noLeadWSAux (isNL c) r

/-- See `noLeadWSAux`. -/
def noLineLeadingWS (l : List Char) : Bool := noLeadWSAux true l

/-- Claim-facing predicate: every line that begins with a bullet marker
(`'-'` or `'•'`) followed by whitespace in fact begins with `"• "`. -/
def bulletsNormAux : Bool → List Char → Bool
  | _, [] => true
  | _, [_] => true
  | s, c :: d :: r =>
    (!s || !((c = '-' || c = '•') && isWS d) || ((c = '•') && (d = ' '))) &&
    bulletsNormAux (isNL c) (d :: r)

/-- See `bulletsNormAux`. -/
def bulletsNormalized (l : List Char) : Bool := bulletsNormAux true l

/-- Claim-facing predicate: no run of three or more consecutive newlines
(`n` counts the newlines seen in the current run). -/
def noTripleAux : Nat → List Char → Bool
  | _, [] => true
  | n, c :: r =>
    if c = '\n' then decide (n < 2) && noTripleAux (n + 1) r
    else noTripleAux 0 r

/-- See `noTripleAux`. -/
def noTripleNL (l : List Char) : Bool := noTripleAux 0 l

/-- A markdown header marker as targeted by the source's
`.replace(/#{1,6}\s/g, '')`: some `'#'` immediately followed by
whitespace (a run of one to six hashes followed by whitespace occurs in a
string iff a single hash followed by whitespace does). -/
def noHashMarker : List Char → Bool
  | [] => true
  | [_] => true
  | c :: d :: r => !((c = '#') && isWS d) && noHashMarker (d :: r)

/-! ### Simple facts about the character classes -/

theorem isWS_of_isNL {c : Char} (h : isNL c = true) : isWS c = true := by
  simp only [isNL, Bool.or_eq_true, decide_eq_true_eq] at h
  rcases h with ((h | h) | h) | h <;> subst h <;> decide

theorem isNL_eq_false {c : Char} (h : isWS c = false) : isNL c = false := by
  cases hn : isNL c with
  | false => rfl
  | true => rw [isWS_of_isNL hn] at h; cases h

/-! ### Equation lemmas for the scans -/

theorem bnormGo_nil (s : Bool) (w : List Char) : bnormGo s w [] = w.reverse := by
  cases s <;> simp [bnormGo]

theorem bnormGo_false (w : List Char) (c : Char) (r : List Char) :
    bnormGo false w (c :: r) = c :: bnormGo (isNL c) [] r := by
  simp [bnormGo]

theorem bnormGo_true_one (w : List Char) (c : Char) :
    bnormGo true w [c] = w.reverse ++ [c] := by
  simp [bnormGo]

theorem bnormGo_true_ws (w : List Char) {c : Char} (h : isWS c = true)
    (d : Char) (tl : List Char) :
    bnormGo true w (c :: d :: tl) = bnormGo true (c :: w) (d :: tl) := by
  simp [bnormGo, h]

theorem bnormGo_true_bullet {c d : Char} (w : List Char)
    (hc : isWS c = false) (h : (c = '-' ∨ c = '•') ∧ isWS d = true)
    (tl : List Char) :
    bnormGo true w (c :: d :: tl) = '•' :: ' ' :: bnormGo (isNL d) [] tl := by
  simp [bnormGo, hc, h]

theorem bnormGo_true_other {c d : Char} (w : List Char) (hc : isWS c = false)
    (h : ¬((c = '-' ∨ c = '•') ∧ isWS d = true)) (tl : List Char) :
    bnormGo true w (c :: d :: tl) = w.reverse ++ c :: bnormGo false [] (d :: tl) := by
  simp only [bnormGo, hc, Bool.false_eq_true, if_false, if_neg h]

theorem scanOK_cons_false (c : Char) (r : List Char) :
    scanOK false (c :: r) = scanOK (isNL c) r := by
  cases r <;> simp [scanOK]

theorem scanOK_cons_cons (s : Bool) (c d : Char) (r : List Char)
    (h : scanOK s (c :: d :: r) = true) : scanOK (isNL c) (d :: r) = true := by
  simp only [scanOK, Bool.and_eq_true] at h
  exact h.2

theorem scanOK_true_head {c : Char} {r : List Char}
    (h : scanOK true (c :: r) = true) : isWS c = false := by
  rcases r with _ | ⟨d, r'⟩
  · simpa [scanOK] using h
  · simp only [scanOK, Bool.and_eq_true, Bool.not_true, Bool.false_or,
      Bool.and_eq_true, Bool.not_eq_true'] at h
    exact h.1.1

theorem scanOK_true_bullet {c d : Char} {r : List Char}
    (h : scanOK true (c :: d :: r) = true)
    (hm : (c = '-' ∨ c = '•') ∧ isWS d = true) : c = '•' ∧ d = ' ' := by
  simp only [scanOK, Bool.and_eq_true, Bool.not_true, Bool.false_or,
    Bool.or_eq_true, Bool.not_eq_true'] at h
  rcases h.1.2 with hb | hb
  · exfalso
    simp only [Bool.and_eq_false_iff, Bool.or_eq_false_iff,
      decide_eq_false_iff_not] at hb
    rcases hb with ⟨hb1, hb2⟩ | hb
    · rcases hm.1 with h1 | h1
      · exact hb1 h1
      · exact hb2 h1
    · rw [hm.2] at hb; cases hb
  · simp only [Bool.and_eq_true, decide_eq_true_eq] at hb
    exact hb

/-! ### Fixed-point lemmas: clean strings pass through each stage
unchanged -/

theorem noStar_cons {c : Char} {r : List Char} :
    noStar (c :: r) = true ↔ c ≠ '*' ∧ noStar r = true := by
  simp [noStar]

theorem removeBold_fix : ∀ l : List Char, noStar l = true → removeBold l = l
  | [], _ => rfl
  | [c], _ => rfl
  | c :: d :: r, h => by
    obtain ⟨hc, hr⟩ := noStar_cons.mp h
    have hcond : ¬(c = '*' ∧ d = '*') := fun hh => hc hh.1
    simp only [removeBold, if_neg hcond]
    rw [removeBold_fix (d :: r) hr]

theorem removeStar_fix : ∀ l : List Char, noStar l = true → removeStar l = l
  | [], _ => rfl
  | c :: r, h => by
    obtain ⟨hc, hr⟩ := noStar_cons.mp h
    simp only [removeStar, if_neg hc]
    rw [removeStar_fix r hr]

theorem bnorm_fix : ∀ (l : List Char) (s : Bool),
    scanOK s l = true → bnormGo s [] l = l
  | [], _, _ => by simp [bnormGo_nil]
  | [c], s, h => by
    cases s with
    | false => simp [bnormGo_false, bnormGo_nil]
    | true => simp [bnormGo_true_one]
  | c :: d :: tl, false, h => by
    rw [bnormGo_false]
    rw [bnorm_fix (d :: tl) (isNL c) (scanOK_cons_cons _ _ _ _ h)]
  | c :: d :: tl, true, h => by
    have hcws : isWS c = false := scanOK_true_head h
    have hrest : scanOK (isNL c) (d :: tl) = true := scanOK_cons_cons _ _ _ _ h
    by_cases hm : (c = '-' ∨ c = '•') ∧ isWS d = true
    · obtain ⟨hceq, hdeq⟩ := scanOK_true_bullet h hm
      subst hceq; subst hdeq
      rw [bnormGo_true_bullet [] hcws hm]
      have h2 : scanOK false tl = true := by
        have : isNL '•' = false := by decide
        rw [this] at hrest
        rw [scanOK_cons_false] at hrest
        have hsp : isNL ' ' = false := by decide
        rwa [hsp] at hrest
      have hsp : isNL ' ' = false := by decide
      rw [hsp, bnorm_fix tl false h2]
    · rw [bnormGo_true_other [] hcws hm, List.reverse_nil, List.nil_append]
      have h2 : scanOK false (d :: tl) = true := by
        rw [isNL_eq_false hcws] at hrest; exact hrest
      rw [show bnormGo false [] (d :: tl) = d :: tl from bnorm_fix (d :: tl) false h2]

theorem collapse_fix : ∀ (l : List Char) (s : Bool) (n : Nat),
    scanOK s l = true → (n = 0 ∨ (n = 1 ∧ s = true)) →
    collapseAux n l = List.replicate n '\n' ++ l
  | [], s, n, _, hn => by
    rcases hn with rfl | ⟨rfl, _⟩ <;> simp [collapseAux]
  | c :: r, s, n, h, hn => by
    by_cases hc : c = '\n'
    · subst hc
      have hs : s = false := by
        cases s with
        | false => rfl
        | true => exact absurd (scanOK_true_head h) (by decide)
      have hn0 : n = 0 := by
        rcases hn with rfl | ⟨_, hst⟩
        · rfl
        · rw [hst] at hs; cases hs
      subst hn0; subst hs
      simp only [collapseAux, if_pos rfl]
      have hr : scanOK true r = true := by
        rw [scanOK_cons_false] at h
        have : isNL '\n' = true := by decide
        rwa [this] at h
      rw [collapse_fix r true 1 hr (Or.inr ⟨rfl, rfl⟩)]
      simp
    · have hmin : min n 2 = n := by
        rcases hn with rfl | ⟨rfl, _⟩ <;> simp
      simp only [collapseAux, if_neg hc, hmin]
      have hr : scanOK (isNL c) r = true := by
        rcases r with _ | ⟨d, r'⟩
        · rfl
        · exact scanOK_cons_cons _ _ _ _ h
      rw [collapse_fix r (isNL c) 0 hr (Or.inl rfl)]
      simp

theorem slAux_fix : ∀ (l : List Char) (s : Bool),
    scanOK s l = true → slAux s l = l
  | [], s, _ => by cases s <;> rfl
  | c :: r, s, h => by
    have hr : scanOK (isNL c) r = true := by
      rcases r with _ | ⟨d, r'⟩
      · rfl
      · exact scanOK_cons_cons _ _ _ _ h
    cases s with
    | false => simp only [slAux]; rw [slAux_fix r (isNL c) hr]
    | true =>
      simp only [slAux, scanOK_true_head h, Bool.false_eq_true, if_false]
      rw [slAux_fix r (isNL c) hr]


/-! ### The bullet-shape invariant of `bulletNorm` output

`bOKGo m z` walks `z` tracking the multiline-anchor state `m`:
`none` means mid-line, `some rn` means inside the whitespace run that
begins at a line start (`rn` records whether that run is non-empty so
far).  It requires that a bullet marker followed by whitespace standing
at the end of a line-start whitespace run is exactly `'•' ' '` with an
EMPTY run — precisely the shape `bulletNorm` leaves behind. -/

def bOKGo : Option Bool → List Char → Bool
  | _, [] => true
  | none, c :: r => bOKGo (if isNL c then some false else none) r
  | some _, [_] => true
  | some rn, c :: d :: r =>
    if isWS c then bOKGo (some true) (d :: r)
    else if (c = '-' ∨ c = '•') ∧ isWS d = true then
      (!rn && (c = '•') && (d = ' ')) && bOKGo none (d :: r)
    else bOKGo none (d :: r)

theorem isNL_bullet : isNL '•' = false := by decide

theorem isNL_space : isNL ' ' = false := by decide

theorem isWS_bullet : isWS '•' = false := by decide

theorem isWS_space : isWS ' ' = true := by decide

theorem isWS_nl : isWS '\n' = true := by decide

theorem isNL_nl : isNL '\n' = true := by decide

theorem bOKGo_none_cons (c : Char) (r : List Char) :
    bOKGo none (c :: r) = bOKGo (if isNL c then some false else none) r := by
  simp [bOKGo]

theorem bOKGo_some_ws {c : Char} (rn : Bool) (h : isWS c = true)
    (d : Char) (r : List Char) :
    bOKGo (some rn) (c :: d :: r) = bOKGo (some true) (d :: r) := by
  simp [bOKGo, h]

theorem bOKGo_some_bullet {c d : Char} (rn : Bool) (hc : isWS c = false)
    (hb : (c = '-' ∨ c = '•') ∧ isWS d = true) (r : List Char) :
    bOKGo (some rn) (c :: d :: r) =
      ((!rn && (c = '•') && (d = ' ')) && bOKGo none (d :: r)) := by
  simp only [bOKGo, hc, Bool.false_eq_true, if_false, if_pos hb]

theorem bOKGo_some_other {c d : Char} (rn : Bool) (hc : isWS c = false)
    (hb : ¬((c = '-' ∨ c = '•') ∧ isWS d = true)) (r : List Char) :
    bOKGo (some rn) (c :: d :: r) = bOKGo none (d :: r) := by
  simp only [bOKGo, hc, Bool.false_eq_true, if_false, if_neg hb]

theorem bOKGo_allWS : ∀ (l : List Char) (m : Option Bool),
    (∀ c ∈ l, isWS c = true) → bOKGo m l = true
  | [], m, _ => by cases m <;> rfl
  | c :: r, none, h => by
    rw [bOKGo_none_cons]
    exact bOKGo_allWS r _ (fun d hd => h d (by simp [hd]))
  | [c], some rn, _ => rfl
  | c :: d :: r, some rn, h => by
    rw [bOKGo_some_ws rn (h c (by simp)) d r]
    exact bOKGo_allWS (d :: r) _ (fun e he => h e (by simp [he]))

theorem bOKGo_ws_prefix : ∀ (u : List Char) (m : Option Bool) (rest : List Char),
    (∀ c ∈ u, isWS c = true) →
    ∃ m', bOKGo m (u ++ rest) = bOKGo m' rest
  | [], m, rest, _ => ⟨m, rfl⟩
  | c :: u', m, rest, h => by
    have hc : isWS c = true := h c (by simp)
    have hu : ∀ d ∈ u', isWS d = true := fun d hd => h d (by simp [hd])
    cases m with
    | none =>
      rw [List.cons_append, bOKGo_none_cons]
      exact bOKGo_ws_prefix u' _ rest hu
    | some rn =>
      rw [List.cons_append]
      cases he : u' ++ rest with
      | nil =>
        obtain ⟨hu', hrest⟩ := List.append_eq_nil.mp he
        refine ⟨none, ?_⟩
        rw [hrest]
        rfl
      | cons e t =>
        obtain ⟨m', hrec⟩ := bOKGo_ws_prefix u' (some true) rest hu
        rw [he] at hrec
        exact ⟨m', by rw [bOKGo_some_ws rn hc e t, hrec]⟩

theorem bOKGo_single : ∀ (m : Option Bool) (c : Char), bOKGo m [c] = true
  | none, c => by
    rw [bOKGo_none_cons]
    cases isNL c <;> simp <;> rfl
  | some rn, c => rfl

theorem bnorm_bOK : ∀ (l : List Char) (s : Bool) (w : List Char) (m : Option Bool),
    (∀ c ∈ w, isWS c = true) → m ≠ some true → (s = false → m = none) →
    bOKGo m (bnormGo s w l) = true
  | [], s, w, m, hw, _, _ => by
    rw [bnormGo_nil]
    exact bOKGo_allWS _ m (fun c hc => hw c (List.mem_reverse.mp hc))
  | c :: r, false, w, m, hw, hm, hs => by
    rw [bnormGo_false, hs rfl, bOKGo_none_cons]
    cases hn : isNL c with
    | true =>
      simp only [if_true]
      exact bnorm_bOK r true [] (some false) (by simp) (by simp) (fun h => by cases h)
    | false =>
      simp only [Bool.false_eq_true, if_false]
      exact bnorm_bOK r false [] none (by simp) (by simp) (fun _ => rfl)
  | [c], true, w, m, hw, hm, hs => by
    rw [bnormGo_true_one]
    obtain ⟨m', hEq⟩ :=
      bOKGo_ws_prefix w.reverse m [c] (fun d hd => hw d (List.mem_reverse.mp hd))
    rw [hEq]
    exact bOKGo_single m' c
  | c :: d :: tl, true, w, m, hw, hm, hs => by
    by_cases hws : isWS c = true
    · rw [bnormGo_true_ws w hws]
      refine bnorm_bOK (d :: tl) true (c :: w) m ?_ hm hs
      intro e he
      rcases List.mem_cons.mp he with rfl | he'
      · exact hws
      · exact hw e he'
    · replace hws : isWS c = false := by simpa using hws
      by_cases hb : (c = '-' ∨ c = '•') ∧ isWS d = true
      · rw [bnormGo_true_bullet w hws hb]
        have hT : bOKGo none (bnormGo (isNL d) [] tl) = true := by
          cases hnd : isNL d with
          | true =>
            exact bnorm_bOK tl true [] none (by simp) (by simp) (fun h => by cases h)
          | false =>
            exact bnorm_bOK tl false [] none (by simp) (by simp) (fun _ => rfl)
        cases m with
        | none =>
          rw [bOKGo_none_cons, isNL_bullet]
          simp only [Bool.false_eq_true, if_false]
          rw [bOKGo_none_cons, isNL_space]
          simpa using hT
        | some rn =>
          have hrn : rn = false := by
            cases rn
            · rfl
            · exact absurd rfl hm
          subst hrn
          rw [bOKGo_some_bullet false isWS_bullet ⟨Or.inr rfl, isWS_space⟩]
          rw [bOKGo_none_cons, isNL_space]
          simp only [Bool.false_eq_true, if_false, Bool.not_false, Bool.true_and]
          rw [hT]
          simp
      · rw [bnormGo_true_other w hws hb]
        obtain ⟨m', hEq⟩ := bOKGo_ws_prefix w.reverse m
          (c :: bnormGo false [] (d :: tl))
          (fun e he => hw e (List.mem_reverse.mp he))
        rw [hEq, bnormGo_false]
        cases m' with
        | none =>
          rw [bOKGo_none_cons, isNL_eq_false hws]
          simp only [Bool.false_eq_true, if_false]
          rw [bOKGo_none_cons]
          cases hnd : isNL d with
          | true =>
            simp only [if_true]
            exact bnorm_bOK tl true [] (some false) (by simp) (by simp)
              (fun h => by cases h)
          | false =>
            simp only [Bool.false_eq_true, if_false]
            exact bnorm_bOK tl false [] none (by simp) (by simp) (fun _ => rfl)
        | some rn =>
          rw [bOKGo_some_other rn hws hb, bOKGo_none_cons]
          cases hnd : isNL d with
          | true =>
            simp only [if_true]
            exact bnorm_bOK tl true [] (some false) (by simp) (by simp)
              (fun h => by cases h)
          | false =>
            simp only [Bool.false_eq_true, if_false]
            exact bnorm_bOK tl false [] none (by simp) (by simp) (fun _ => rfl)


/-! ### From the bullet-shape invariant to `scanOK` through `stripLead` -/

theorem slAux_nil (s : Bool) : slAux s [] = [] := by cases s <;> rfl

theorem slAux_false_cons (c : Char) (r : List Char) :
    slAux false (c :: r) = c :: slAux (isNL c) r := rfl

theorem slAux_true_ws {c : Char} (h : isWS c = true) (r : List Char) :
    slAux true (c :: r) = slAux true r := by
  simp [slAux, h]

theorem slAux_true_nws {c : Char} (h : isWS c = false) (r : List Char) :
    slAux true (c :: r) = c :: slAux (isNL c) r := by
  simp [slAux, h]

theorem scanOK_true_intro {c d : Char} {r : List Char}
    (hc : isWS c = false)
    (hbull : ((c = '-' ∨ c = '•') ∧ isWS d = true) → (c = '•' ∧ d = ' '))
    (hrest : scanOK (isNL c) (d :: r) = true) :
    scanOK true (c :: d :: r) = true := by
  simp only [scanOK, Bool.and_eq_true, Bool.not_true, Bool.false_or,
    Bool.or_eq_true, Bool.not_eq_true']
  refine ⟨⟨hc, ?_⟩, hrest⟩
  by_cases hm : (c = '-' ∨ c = '•') ∧ isWS d = true
  · obtain ⟨h1, h2⟩ := hbull hm
    right
    simp [h1, h2]
  · left
    simp only [Bool.and_eq_false_iff, Bool.or_eq_false_iff,
      decide_eq_false_iff_not]
    by_cases hd : isWS d = true
    · left
      constructor
      · intro hcc; exact hm ⟨Or.inl hcc, hd⟩
      · intro hcc; exact hm ⟨Or.inr hcc, hd⟩
    · right; simpa using hd

theorem bOK_slAux_scanOK : ∀ (z : List Char) (m : Option Bool),
    bOKGo m z = true → scanOK m.isSome (slAux m.isSome z) = true
  | [], m, _ => by cases m <;> rfl
  | c :: r, none, h => by
    simp only [Option.isSome_none]
    rw [slAux_false_cons, scanOK_cons_false]
    rw [bOKGo_none_cons] at h
    cases hn : isNL c with
    | true =>
      rw [hn] at h
      simp only [if_true] at h
      simpa using bOK_slAux_scanOK r (some false) h
    | false =>
      rw [hn] at h
      simp only [Bool.false_eq_true, if_false] at h
      simpa using bOK_slAux_scanOK r none h
  | c :: r, some rn, h => by
    simp only [Option.isSome_some]
    by_cases hws : isWS c = true
    · rw [slAux_true_ws hws]
      rcases r with _ | ⟨d, tl⟩
      · rw [slAux_nil]; rfl
      · rw [bOKGo_some_ws rn hws d tl] at h
        simpa using bOK_slAux_scanOK (d :: tl) (some true) h
    · replace hws : isWS c = false := by simpa using hws
      rw [slAux_true_nws hws, isNL_eq_false hws]
      rcases r with _ | ⟨d, tl⟩
      · rw [slAux_nil]
        simp [scanOK, hws]
      · rw [slAux_false_cons]
        by_cases hb : (c = '-' ∨ c = '•') ∧ isWS d = true
        · rw [bOKGo_some_bullet rn hws hb] at h
          simp only [Bool.and_eq_true, Bool.not_eq_true', decide_eq_true_eq] at h
          obtain ⟨⟨⟨hrn, hce⟩, hde⟩, hrest⟩ := h
          have hscan := bOK_slAux_scanOK (d :: tl) none hrest
          simp only [Option.isSome_none] at hscan
          rw [slAux_false_cons] at hscan
          rw [scanOK_cons_false] at hscan
          refine scanOK_true_intro hws (fun _ => ⟨hce, hde⟩) ?_
          rw [isNL_eq_false hws, scanOK_cons_false]
          exact hscan
        · rw [bOKGo_some_other rn hws hb] at h
          have hscan := bOK_slAux_scanOK (d :: tl) none h
          simp only [Option.isSome_none] at hscan
          rw [slAux_false_cons] at hscan
          rw [scanOK_cons_false] at hscan
          refine scanOK_true_intro hws (fun hm => absurd hm hb) ?_
          rw [isNL_eq_false hws, scanOK_cons_false]
          exact hscan

/-! ### `collapseNL` commutes away under `stripLead` -/

theorem slAux_true_replicateNL : ∀ (k : Nat) (t : List Char),
    slAux true (List.replicate k '\n' ++ t) = slAux true t
  | 0, t => rfl
  | k + 1, t => by
    rw [List.replicate_succ, List.cons_append, slAux_true_ws isWS_nl]
    exact slAux_true_replicateNL k t

theorem slAux_false_replicateNL : ∀ (k : Nat) (t : List Char), 1 ≤ k →
    slAux false (List.replicate k '\n' ++ t) = '\n' :: slAux true t
  | k + 1, t, _ => by
    rw [List.replicate_succ, List.cons_append, slAux_false_cons, isNL_nl]
    rw [slAux_true_replicateNL k t]

theorem slAux_true_repl_nil : ∀ k : Nat, slAux true (List.replicate k '\n') = []
  | 0 => rfl
  | k + 1 => by
    rw [List.replicate_succ, slAux_true_ws isWS_nl]
    exact slAux_true_repl_nil k

theorem slAux_false_repl : ∀ k : Nat, 1 ≤ k →
    slAux false (List.replicate k '\n') = ['\n']
  | k + 1, _ => by
    rw [List.replicate_succ, slAux_false_cons, isNL_nl, slAux_true_repl_nil k]

theorem slAux_collapseAux : ∀ (z : List Char) (s : Bool) (n : Nat),
    slAux s (collapseAux n z) = slAux s (List.replicate n '\n' ++ z)
  | [], s, n => by
    simp only [collapseAux, List.append_nil]
    cases s with
    | true => rw [slAux_true_repl_nil, slAux_true_repl_nil]
    | false =>
      rcases n with _ | n
      · rfl
      · rw [slAux_false_repl _ (by omega), slAux_false_repl _ (by omega)]
  | c :: r, s, n => by
    by_cases hc : c = '\n'
    · subst hc
      rw [show collapseAux n ('\n' :: r) = collapseAux (n + 1) r from by
        simp [collapseAux]]
      rw [slAux_collapseAux r s (n + 1)]
      congr 1
      rw [List.replicate_succ', List.append_assoc]
      rfl
    · simp only [collapseAux, if_neg hc]
      have hstep : ∀ s' : Bool,
          slAux s' (c :: collapseAux 0 r) = slAux s' (c :: r) := by
        intro s'
        have h0 : ∀ s'' : Bool, slAux s'' (collapseAux 0 r) = slAux s'' r := by
          intro s''
          have := slAux_collapseAux r s'' 0
          simpa using this
        cases s' with
        | false => rw [slAux_false_cons, slAux_false_cons, h0]
        | true =>
          by_cases hw : isWS c = true
          · rw [slAux_true_ws hw, slAux_true_ws hw, h0]
          · replace hw : isWS c = false := by simpa using hw
            rw [slAux_true_nws hw, slAux_true_nws hw, h0]
      rcases Nat.eq_zero_or_pos n with rfl | hn
      · simpa using hstep s
      · have hm : 1 ≤ min n 2 := by omega
        cases s with
        | true =>
          rw [slAux_true_replicateNL, slAux_true_replicateNL]
          exact hstep true
        | false =>
          rw [slAux_false_replicateNL _ _ hm, slAux_false_replicateNL _ _ hn]
          rw [hstep true]


/-! ### Trim lemmas -/

theorem dropWhile_eq_self_of_scanOK {l : List Char} (h : scanOK true l = true) :
    l.dropWhile isWS = l := by
  cases l with
  | nil => rfl
  | cons c r =>
    rw [List.dropWhile_cons, if_neg (by simp [scanOK_true_head h])]

theorem head_dropWhile_nws : ∀ (l : List Char) {c : Char},
    (l.dropWhile isWS).head? = some c → isWS c = false
  | [], c, h => by cases h
  | a :: r, c, h => by
    by_cases hp : isWS a = true
    · rw [List.dropWhile_cons, if_pos hp] at h
      exact head_dropWhile_nws r h
    · rw [List.dropWhile_cons, if_neg hp] at h
      simp only [List.head?_cons, Option.some.injEq] at h
      subst h
      simpa using hp

theorem lastOK_of_getLast? {l : List Char}
    (h : ∀ c, l.getLast? = some c → isWS c = false) : lastOK l = true := by
  unfold lastOK
  cases hh : l.getLast? with
  | none => rfl
  | some c => simp [h c hh]

theorem lastOK_some {l : List Char} {c : Char} (h : lastOK l = true)
    (hc : l.getLast? = some c) : isWS c = false := by
  unfold lastOK at h
  rw [hc] at h
  simpa using h

theorem jsTrim_lastOK (l : List Char) : lastOK (jsTrim l) = true := by
  unfold jsTrim
  refine lastOK_of_getLast? (fun c hc => ?_)
  rw [List.getLast?_reverse] at hc
  exact head_dropWhile_nws _ hc

theorem jsTrim_fix {l : List Char} (h1 : scanOK true l = true)
    (h2 : lastOK l = true) : jsTrim l = l := by
  unfold jsTrim
  rw [dropWhile_eq_self_of_scanOK h1]
  have hrev : l.reverse.dropWhile isWS = l.reverse := by
    cases hr : l.reverse with
    | nil => rfl
    | cons c t =>
      rw [List.dropWhile_cons, if_neg ?_]
      have hl : l.getLast? = some c := by
        rw [← List.head?_reverse, hr]
        rfl
      simp [lastOK_some h2 hl]
  rw [hrev, List.reverse_reverse]

theorem scanOK_append_left : ∀ (xs ys : List Char) (s : Bool),
    scanOK s (xs ++ ys) = true → scanOK s xs = true
  | [], _, s, _ => by cases s <;> rfl
  | [x], ys, s, h => by
    cases s with
    | false => cases ys <;> simp [scanOK]
    | true =>
      have hx : isWS x = false := scanOK_true_head (by simpa using h)
      simp [scanOK, hx]
  | x :: y :: xs', ys, s, h => by
    simp only [List.cons_append] at h
    have h2 := scanOK_cons_cons s x y (xs' ++ ys) (by simpa using h)
    have ih := scanOK_append_left (y :: xs') ys (isNL x) (by simpa using h2)
    simp only [scanOK, Bool.and_eq_true] at h ⊢
    exact ⟨h.1, ih⟩

/-! ### Star-freeness is established and preserved -/

theorem noStar_reverse {l : List Char} (h : noStar l = true) :
    noStar l.reverse = true := by
  simp only [noStar, List.all_reverse]
  exact h

theorem noStar_append {a b : List Char} (ha : noStar a = true)
    (hb : noStar b = true) : noStar (a ++ b) = true := by
  simp only [noStar] at ha hb
  simp only [noStar, List.all_append, ha, hb]
  rfl

theorem noStar_sublist {a b : List Char} (hs : List.Sublist a b)
    (h : noStar b = true) : noStar a = true := by
  simp only [noStar, List.all_eq_true] at h ⊢
  exact fun c hc => h c (hs.subset hc)

theorem noStar_removeStar : ∀ l : List Char, noStar (removeStar l) = true
  | [] => rfl
  | c :: r => by
    by_cases hc : c = '*'
    · simp only [removeStar, if_pos hc]
      exact noStar_removeStar r
    · simp only [removeStar, if_neg hc]
      exact noStar_cons.mpr ⟨hc, noStar_removeStar r⟩

theorem noStar_bnormGo : ∀ (l : List Char) (s : Bool) (w : List Char),
    noStar l = true → noStar w = true → noStar (bnormGo s w l) = true
  | [], _, w, _, hw => by rw [bnormGo_nil]; exact noStar_reverse hw
  | c :: r, false, w, hl, _ => by
    rw [bnormGo_false]
    obtain ⟨hc, hr⟩ := noStar_cons.mp hl
    exact noStar_cons.mpr ⟨hc, noStar_bnormGo r _ [] hr rfl⟩
  | [c], true, w, hl, hw => by
    rw [bnormGo_true_one]
    exact noStar_append (noStar_reverse hw) hl
  | c :: d :: tl, true, w, hl, hw => by
    obtain ⟨hc, hr⟩ := noStar_cons.mp hl
    obtain ⟨hd, htl⟩ := noStar_cons.mp hr
    by_cases hws : isWS c = true
    · rw [bnormGo_true_ws w hws]
      exact noStar_bnormGo (d :: tl) true (c :: w) hr (noStar_cons.mpr ⟨hc, hw⟩)
    · replace hws : isWS c = false := by simpa using hws
      by_cases hb : (c = '-' ∨ c = '•') ∧ isWS d = true
      · rw [bnormGo_true_bullet w hws hb]
        refine noStar_cons.mpr ⟨by decide, noStar_cons.mpr ⟨by decide, ?_⟩⟩
        exact noStar_bnormGo tl _ [] htl rfl
      · rw [bnormGo_true_other w hws hb]
        refine noStar_append (noStar_reverse hw) (noStar_cons.mpr ⟨hc, ?_⟩)
        exact noStar_bnormGo (d :: tl) false [] hr rfl

theorem noStar_replicateNL (k : Nat) :
    noStar (List.replicate k '\n') = true := by
  simp only [noStar, List.all_eq_true]
  intro c hc
  rw [List.eq_of_mem_replicate hc]
  decide

theorem noStar_collapseAux : ∀ (l : List Char) (n : Nat),
    noStar l = true → noStar (collapseAux n l) = true
  | [], n, _ => by
    simp only [collapseAux]
    exact noStar_replicateNL _
  | c :: r, n, h => by
    obtain ⟨hc, hr⟩ := noStar_cons.mp h
    by_cases hcn : c = '\n'
    · rw [show collapseAux n (c :: r) = collapseAux (n + 1) r from by
        simp [collapseAux, hcn]]
      exact noStar_collapseAux r _ hr
    · rw [show collapseAux n (c :: r) =
          List.replicate (min n 2) '\n' ++ c :: collapseAux 0 r from by
        simp [collapseAux, hcn]]
      exact noStar_append (noStar_replicateNL _)
        (noStar_cons.mpr ⟨hc, noStar_collapseAux r 0 hr⟩)

theorem noStar_slAux : ∀ (l : List Char) (s : Bool),
    noStar l = true → noStar (slAux s l) = true
  | [], s, _ => by rw [slAux_nil]; rfl
  | c :: r, false, h => by
    obtain ⟨hc, hr⟩ := noStar_cons.mp h
    rw [slAux_false_cons]
    exact noStar_cons.mpr ⟨hc, noStar_slAux r _ hr⟩
  | c :: r, true, h => by
    obtain ⟨hc, hr⟩ := noStar_cons.mp h
    by_cases hws : isWS c = true
    · rw [slAux_true_ws hws]
      exact noStar_slAux r true hr
    · replace hws : isWS c = false := by simpa using hws
      rw [slAux_true_nws hws]
      exact noStar_cons.mpr ⟨hc, noStar_slAux r _ hr⟩

theorem noStar_jsTrim {l : List Char} (h : noStar l = true) :
    noStar (jsTrim l) = true := by
  unfold jsTrim
  apply noStar_reverse
  apply noStar_sublist (List.dropWhile_sublist _)
  apply noStar_reverse
  exact noStar_sublist (List.dropWhile_sublist _) h

/-! ### The format pass always produces clean content, and clean content
is a fixed point of the format pass -/

theorem format_clean (x : List Char) :
    scanOK true (formatSectionContent x) = true ∧
    noStar (formatSectionContent x) = true ∧
    lastOK (formatSectionContent x) = true := by
  have hform : formatSectionContent x =
      jsTrim (stripLead (bulletNorm (removeStar (removeBold x)))) := by
    unfold formatSectionContent stripLead collapseNL
    have h := slAux_collapseAux (bulletNorm (removeStar (removeBold x))) true 0
    simp only [List.replicate, List.nil_append] at h
    rw [h]
  rw [hform]
  have hbok : bOKGo (some false) (bulletNorm (removeStar (removeBold x))) = true := by
    unfold bulletNorm
    exact bnorm_bOK _ true [] (some false) (by simp) (by simp) (fun h => by cases h)
  have hscan : scanOK true (stripLead (bulletNorm (removeStar (removeBold x)))) = true := by
    have := bOK_slAux_scanOK (bulletNorm (removeStar (removeBold x))) (some false) hbok
    simpa [stripLead] using this
  have hstar : noStar (stripLead (bulletNorm (removeStar (removeBold x)))) = true := by
    apply noStar_slAux
    unfold bulletNorm
    exact noStar_bnormGo _ true [] (noStar_removeStar _) rfl
  refine ⟨?_, noStar_jsTrim hstar, jsTrim_lastOK _⟩
  have hdecomp : ∀ y : List Char,
      y = (y.reverse.dropWhile isWS).reverse ++ (y.reverse.takeWhile isWS).reverse := by
    intro y
    conv_lhs => rw [← List.reverse_reverse y,
      ← List.takeWhile_append_dropWhile (p := isWS) (l := y.reverse)]
    rw [List.reverse_append]
  unfold jsTrim
  rw [dropWhile_eq_self_of_scanOK hscan]
  exact scanOK_append_left _ _ true
    (by rw [← hdecomp (stripLead (bulletNorm (removeStar (removeBold x))))]; exact hscan)

theorem format_fix {l : List Char} (h1 : scanOK true l = true)
    (h2 : noStar l = true) (h3 : lastOK l = true) :
    formatSectionContent l = l := by
  unfold formatSectionContent
  rw [removeBold_fix l h2, removeStar_fix l h2]
  rw [show bulletNorm l = l from bnorm_fix l true h1]
  rw [show collapseNL l = l from by
    have := collapse_fix l true 0 h1 (Or.inl rfl)
    simpa [collapseNL] using this]
  rw [show stripLead l = l from slAux_fix l true h1]
  exact jsTrim_fix h1 h3

/-- C2: the per-section formatting pass is idempotent: for every string x,
`formatSectionContent (formatSectionContent x) = formatSectionContent x`. -/
theorem formatSectionContent_idempotent (x : List Char) :
    formatSectionContent (formatSectionContent x) = formatSectionContent x := by
  obtain ⟨h1, h2, h3⟩ := format_clean x
  exact format_fix h1 h2 h3


/-! ### From `scanOK` to the claim-facing cleanliness predicates -/

theorem bulletCond_of_not {c d : Char}
    (hb : ¬((c = '-' ∨ c = '•') ∧ isWS d = true)) :
    (!((c = '-' || c = '•') && isWS d)) = true := by
  simp only [Bool.not_eq_true', Bool.and_eq_false_iff, Bool.or_eq_false_iff,
    decide_eq_false_iff_not]
  by_cases hd : isWS d = true
  · left
    exact ⟨fun h1 => hb ⟨Or.inl h1, hd⟩, fun h1 => hb ⟨Or.inr h1, hd⟩⟩
  · right
    simpa using hd

theorem noLeadWSAux_cons (s : Bool) (c : Char) (r : List Char) :
    noLeadWSAux s (c :: r) = ((!s || !isWS c) && noLeadWSAux (isNL c) r) := by
  simp [noLeadWSAux]

theorem scanOK_noLead : ∀ (l : List Char) (s : Bool),
    scanOK s l = true → noLeadWSAux s l = true
  | [], _, _ => rfl
  | [c], s, h => by
    cases s with
    | false => simp [noLeadWSAux]
    | true => simp [noLeadWSAux, scanOK_true_head h]
  | c :: d :: r, s, h => by
    have h2 := scanOK_cons_cons s c d r h
    have ih := scanOK_noLead (d :: r) (isNL c) h2
    rw [noLeadWSAux_cons, Bool.and_eq_true]
    refine ⟨?_, ih⟩
    cases s with
    | false => simp
    | true => simp [scanOK_true_head h]

theorem scanOK_bullets : ∀ (l : List Char) (s : Bool),
    scanOK s l = true → bulletsNormAux s l = true
  | [], _, _ => rfl
  | [_], _, _ => rfl
  | c :: d :: r, s, h => by
    have h2 := scanOK_cons_cons s c d r h
    have ih := scanOK_bullets (d :: r) (isNL c) h2
    simp only [bulletsNormAux, Bool.and_eq_true]
    refine ⟨?_, ih⟩
    cases s with
    | false => simp
    | true =>
      by_cases hb : (c = '-' ∨ c = '•') ∧ isWS d = true
      · obtain ⟨h1', h2'⟩ := scanOK_true_bullet h hb
        simp [h1', h2']
      · simp [bulletCond_of_not hb]

theorem scanOK_noTriple : ∀ (l : List Char) (s : Bool) (n : Nat),
    scanOK s l = true → (1 ≤ n → s = true) → noTripleAux n l = true
  | [], _, _, _, _ => rfl
  | [c], s, n, h, hn => by
    by_cases hc : c = '\n'
    · subst hc
      have hs : s = false := by
        cases s
        · rfl
        · exact absurd (scanOK_true_head h) (by decide)
      have hn0 : n = 0 := by
        by_contra hcon
        have := hn (by omega)
        rw [this] at hs
        cases hs
      subst hn0
      simp [noTripleAux]
    · simp [noTripleAux, hc]
  | c :: d :: r, s, n, h, hn => by
    have h2 := scanOK_cons_cons s c d r h
    by_cases hc : c = '\n'
    · subst hc
      have hs : s = false := by
        cases s
        · rfl
        · exact absurd (scanOK_true_head h) (by decide)
      have hn0 : n = 0 := by
        by_contra hcon
        have := hn (by omega)
        rw [this] at hs
        cases hs
      subst hn0
      rw [show noTripleAux 0 ('\n' :: d :: r) = noTripleAux 1 (d :: r) from by
        simp [noTripleAux]]
      exact scanOK_noTriple (d :: r) _ 1 h2 (fun _ => isNL_nl)
    · rw [show noTripleAux n (c :: d :: r) = noTripleAux 0 (d :: r) from by
        simp [noTripleAux, hc]]
      exact scanOK_noTriple (d :: r) _ 0 h2 (by omega)

/-! ### Every output section's content comes out of the format pass -/

theorem content_is_formatted : ∀ (lines : List (List Char)) (cur acc : List Char)
    (sec : BusinessPlanSection), sec ∈ scanLines lines cur acc →
    ∃ y, sec.content = formatSectionContent y
  | [], cur, acc, sec, h => by
    simp only [scanLines, flushSec] at h
    split at h
    · rcases List.mem_singleton.mp h with rfl
      exact ⟨jsTrim acc, rfl⟩
    · cases h
  | line :: rest, cur, acc, sec, h => by
    simp only [scanLines] at h
    cases hm : matchedHeader (jsTrim line) with
    | some hd =>
      rw [hm] at h
      rcases List.mem_append.mp h with h1 | h1
      · simp only [flushSec] at h1
        split at h1
        · rcases List.mem_singleton.mp h1 with rfl
          exact ⟨jsTrim acc, rfl⟩
        · cases h1
      · exact content_is_formatted rest hd [] sec h1
    | none =>
      rw [hm] at h
      exact content_is_formatted rest cur _ sec h

theorem parse_content_is_formatted (raw : List Char)
    (sec : BusinessPlanSection) (h : sec ∈ parseBusinessPlanSections raw) :
    ∃ y, sec.content = formatSectionContent y := by
  simp only [parseBusinessPlanSections] at h
  split at h
  · rcases List.mem_singleton.mp h with rfl
    exact ⟨cleanContent raw, rfl⟩
  · exact content_is_formatted _ [] [] sec h

/-- C1 amended: for every input string, every section in the output of
`parseBusinessPlanSections` has content in which no line begins with
whitespace, no '**' or '*' marker remains, every bullet marker followed by
whitespace at a line start is exactly "• ", and no run of more than one
blank line occurs.  (The original claim's hash clause is dropped: a
markdown '#'-header marker CAN survive, see
`hash_marker_survives_counterexample`.) -/
theorem sectionize_contents_clean (raw : List Char) (sec : BusinessPlanSection)
    (h : sec ∈ parseBusinessPlanSections raw) :
    noLineLeadingWS sec.content = true ∧ noStar sec.content = true ∧
    bulletsNormalized sec.content = true ∧ noTripleNL sec.content = true := by
  obtain ⟨y, hy⟩ := parse_content_is_formatted raw sec h
  rw [hy]
  obtain ⟨h1, h2, h3⟩ := format_clean y
  exact ⟨scanOK_noLead _ _ h1, h2, scanOK_bullets _ _ h1,
    scanOK_noTriple _ _ 0 h1 (by omega)⟩

/-- Witness for `sectionize_contents_clean` at a concrete input whose
single output section is the fallback. -/
theorem sectionize_contents_clean_witness :
    noLineLeadingWS (str "hello") = true ∧ noStar (str "hello") = true ∧
    bulletsNormalized (str "hello") = true ∧ noTripleNL (str "hello") = true :=
  sectionize_contents_clean (str "hello")
    ⟨str "Business Plan", str "hello"⟩ (by decide)

/-- C1 counterexample: the input "Executive Summary\n#######  x" contains a
run of seven '#'; the global cleanup consumes only six hashes plus one
whitespace character, leaving "# x", and the per-section formatting pass
never removes hash markers — so the output section's content still contains
a markdown header marker ('#' followed by whitespace), refuting the
original claim's hash clause. -/
theorem hash_marker_survives_counterexample :
    parseBusinessPlanSections (str "Executive Summary\n#######  x") =
      [⟨str "Executive Summary", str "# x"⟩] ∧
    noHashMarker (str "# x") = false :=
  ⟨by decide, by decide⟩

end BizLearn
